import Mathlib

set_option maxRecDepth 100000

/-!
Verification of the ini-parser C program (src/main.c): a linear bump allocator,
a fixed-capacity open-addressing hash table keyed by FNV-1a-hashed strings, and
a single-pass INI scanner/parser.  C strings are modelled as lists of byte
values (`List Nat`), machine `size_t`/`uint64_t` arithmetic as `Nat` with
explicit `% 2 ^ 64`, and each C loop as a fuel-indexed function whose `none`
result means the loop has not finished within the given fuel.  Definitions
come first (allocator, hash table, scanner/parser, model-inspection helpers
and invariants), then the supporting lemmas, then one theorem per claim.
-/


/-
 * ------------------------------------
 * Machine arithmetic
 * ------------------------------------
-/

/-- Bitwise AND of two machine words, one bit per fuel step; `landAux 64` is
the C `&` operator on 64-bit operands. -/
def landAux : Nat → Nat → Nat → Nat
  | 0, _, _ => 0
  | fuel + 1, n, m => (n % 2) * (m % 2) + 2 * landAux fuel (n / 2) (m / 2)

/-- The C `&` on `uint64_t`/`size_t` operands (both below `2 ^ 64`). -/
def land64 (n m : Nat) : Nat := landAux 64 n m

/-
 * ------------------------------------
 * Allocator (src/main.c lines 15-55)
 * ------------------------------------
-/

def INITIAL_ALLOC_SIZE : Nat := 2048

/-- C struct `LinearAllocator`: `buffer` is the backing block as a byte map, `cap` its
capacity, `offset` the current index into it. -/
structure LinearAllocator where
  buffer : Nat → Nat
  cap : Nat
  offset : Nat

/-- C `allocator_init`: a fresh block of `INITIAL_ALLOC_SIZE` bytes, offset 0.
The C contents are uninitialized; the model picks all-zero (no code reads a
byte it has not written or had zeroed by `allocator_alloc`). -/
def allocator_init : LinearAllocator :=
  { buffer := fun _ => 0, cap := INITIAL_ALLOC_SIZE, offset := 0 }

/-- C `allocator_alloc`: aligns the offset up to a multiple of 8 with
`(offset + 7) & ~7` in `size_t` arithmetic, checks
`aligned_offset + size > cap` (a `size_t` comparison, so the sum wraps at
`2 ^ 64`), zeroes the granted region (`memset`), and bumps the offset.
Returns the region's start address, or `none` for the `NULL` failure return. -/
def allocator_alloc (a : LinearAllocator) (size : Nat) : Option (Nat × LinearAllocator) :=
  let aligned_offset := land64 ((a.offset + 7) % 2 ^ 64) (2 ^ 64 - 8)
  if (aligned_offset + size) % 2 ^ 64 > a.cap then
    none
  else
    some (aligned_offset,
      { buffer := fun i => if aligned_offset ≤ i ∧ i < aligned_offset + size then 0 else a.buffer i,
        cap := a.cap,
        offset := (aligned_offset + size) % 2 ^ 64 })

/-- C `allocator_reset`: all memory is void and free to be overridden. -/
def allocator_reset (a : LinearAllocator) : LinearAllocator :=
  { a with offset := 0 }

/-- Write a byte list into a byte map starting at `addr` (the effect of the
C `strcpy`/`strncpy` calls into a freshly allocated region). -/
def store_bytes (mem : Nat → Nat) (addr : Nat) (bs : List Nat) : Nat → Nat :=
  fun i => if addr ≤ i ∧ i < addr + bs.length then bs.getD (i - addr) 0 else mem i

/-
 * ------------------------------------
 * Hash Table (src/main.c lines 65-189)
 * ------------------------------------
-/

def MAX_TABLE_SIZE : Nat := 64

def FNV_OFFSET : Nat := 14695981039346656037

def FNV_PRIME : Nat := 1099511628211

/-- C struct `HTEntry`: `key` is `NULL` (`none`) in an empty slot, `val` is the stored
payload (here always an arena string; `none` models a `NULL` pointer). -/
structure HTEntry where
  key : Option (List Nat)
  val : Option (List Nat)
deriving DecidableEq, Repr

def emptyEntry : HTEntry := ⟨none, none⟩

structure SHashTable where
  entries : List HTEntry
  len : Nat
  cap : Nat
deriving DecidableEq, Repr

/-- C `shasht_init`: the C carves the table and its `MAX_TABLE_SIZE`-entry array
out of the arena and relies on `allocator_alloc` zeroing the region, so every
slot starts with `key == NULL`; the model represents the zeroed table
directly. -/
def shasht_init : SHashTable :=
  { entries := List.replicate MAX_TABLE_SIZE emptyEntry, len := 0, cap := MAX_TABLE_SIZE }

/-- C `hash_key`: FNV-1a over the bytes of the key, 64-bit arithmetic. -/
def hash_key (key : List Nat) : Nat :=
  key.foldl (fun h b => ((h ^^^ b) * FNV_PRIME) % 2 ^ 64) FNV_OFFSET

/-- C `str_dup`: copy the string plus its terminator into the arena; the C exits
fatally when `allocator_alloc` fails (`none` here). -/
def str_dup (c : List Nat) (a : LinearAllocator) : Option (List Nat × LinearAllocator) :=
  match allocator_alloc a (c.length + 1) with
  | none => none
  | some (ptr, a') => some (c, { a' with buffer := store_bytes a'.buffer ptr (c ++ [0]) })

/-- The probe loop of `shasht_set` (lines 141-154): walk from `index`, one slot
at a time, wrapping at `cap`, until an empty slot (`(i, false)`) or a slot
whose key compares equal (`(i, true)`); `none` when `fuel` iterations did not
reach either (the C loop is still running). -/
def set_probe (entries : List HTEntry) (cap : Nat) (key : List Nat) :
    Nat → Nat → Option (Nat × Bool)
  | 0, _ => none
  | fuel + 1, index =>
    match (entries.getD index emptyEntry).key with
    | none => some (index, false)
    | some k =>
      if k = key then some (index, true)
      else set_probe entries cap key fuel (if index + 1 ≥ cap then 0 else index + 1)

/-- C `shasht_set`: fatal exit (`some none`) when `len ≥ cap / 2` or when
`str_dup`'s allocation fails; otherwise probe from `hash & (cap - 1)` and
either overwrite the value of the slot holding an equal key (returning the
stored key, no allocation) or duplicate the key into the arena and fill the
empty slot.  Outer `none`: the probe loop ran beyond `cap` iterations. -/
def shasht_set (table : SHashTable) (key value : List Nat) (allocator : LinearAllocator) :
    Option (Option (List Nat × SHashTable × LinearAllocator)) :=
  if table.len ≥ table.cap / 2 then some none
  else
    match set_probe table.entries table.cap key table.cap (land64 (hash_key key) (table.cap - 1)) with
    | none => none
    | some (index, true) =>
      some (some ((table.entries.getD index emptyEntry).key.getD key,
        { table with entries :=
            table.entries.set index ⟨(table.entries.getD index emptyEntry).key, some value⟩ },
        allocator))
    | some (index, false) =>
      match str_dup key allocator with
      | none => some none
      | some (dup, a') =>
        some (some (dup,
          { table with entries := table.entries.set index ⟨some dup, some value⟩,
                       len := table.len + 1 },
          a'))

/-- Outcome of `shasht_get` (lines 165-187). -/
inductive GetOutcome where
  | value (v : Option (List Nat))
  | notFound
  | nullCompare
deriving DecidableEq, Repr

/-- The probe loop of `shasht_get`.  The C compares `key` against
`table->entries->key` — the key of slot 0, not of the probed slot — and
returns `entries[index].val` on a match; when slot 0 is empty that comparison
is `strcmp(key, NULL)`, undefined behavior (`nullCompare`).  An empty probed
slot returns `NULL` (`notFound`). -/
def get_probe (entries : List HTEntry) (cap : Nat) (key : List Nat) :
    Nat → Nat → Option GetOutcome
  | 0, _ => none
  | fuel + 1, index =>
    match (entries.getD index emptyEntry).key with
    | none => some GetOutcome.notFound
    | some _ =>
      match (entries.getD 0 emptyEntry).key with
      | none => some GetOutcome.nullCompare
      | some k0 =>
        if key = k0 then some (GetOutcome.value (entries.getD index emptyEntry).val)
        else get_probe entries cap key fuel (if index + 1 ≥ cap then 0 else index + 1)

def shasht_get (table : SHashTable) (key : List Nat) : Option GetOutcome :=
  get_probe table.entries table.cap key table.cap (land64 (hash_key key) (table.cap - 1))

def shasht_len (table : SHashTable) : Nat := table.len

/-
 * ------------------------------------
 * INI IniParser (src/main.c lines 221-355)
 * ------------------------------------
-/

/-
 * ------------------------------------
 * INI IniParser (src/main.c lines 221-355)
 * ------------------------------------
-/

/-- Parser state: `input` is the byte buffer, `input_len` the length argument,
`position` the current char's index, `read_position` the next index to read,
`ch` the current char, `section_name` the current section (`NULL` at start). -/
structure IniParser where
  input : List Nat
  input_len : Nat
  position : Nat
  read_position : Nat
  ch : Nat
  section_name : Option (List Nat)
deriving DecidableEq, Repr

/-- C `new_parser` (lines 242-245): `{input, input_len, 0, 1, input[0], 0}`.
The initializer dereferences `input[0]` unconditionally; on a zero-length
buffer that read is out of bounds, modelled as `none`. -/
def newParser (input : List Nat) (input_len : Nat) : Option IniParser :=
  match input.head? with
  | none => none
  | some c => some ⟨input, input_len, 0, 1, c, none⟩

def is_digit (ch : Nat) : Bool := 48 ≤ ch && ch ≤ 57

def is_valid_char (ch : Nat) : Bool :=
  (97 ≤ ch && ch ≤ 122) || (65 ≤ ch && ch ≤ 90) || ch == 95 || is_digit ch

/-- C `read_char` (lines 253-265): at end of input set `ch = '0'` (the EOF
sentinel, byte 48); otherwise read `input[read_position]`; then advance both
positions. -/
def read_char (p : IniParser) : IniParser :=
  if p.read_position ≥ p.input_len then
    { p with ch := 48, position := p.read_position, read_position := p.read_position + 1 }
  else
    { p with ch := p.input.getD p.read_position 0,
             position := p.read_position, read_position := p.read_position + 1 }

/-- The `while (is_valid_char(parser->ch))` loop of `read_literal`; `none`
when `fuel` iterations did not leave the loop. -/
def read_literal_loop : Nat → IniParser → Option IniParser
  | 0, _ => none
  | fuel + 1, p => if is_valid_char p.ch then read_literal_loop fuel (read_char p) else some p

/-- C `read_literal` (lines 267-282): scan a maximal run of literal characters,
copy the bytes `input[pos .. position)` plus a terminator into the arena.
Outer `none`: the scan loop is still running; inner `none`: the unchecked
`allocator_alloc` returned `NULL` and the `strncpy` into it is undefined. -/
def read_literal (p : IniParser) (allocator : LinearAllocator) (fuel : Nat) :
    Option (Option (List Nat × IniParser × LinearAllocator)) :=
  let pos := p.position
  match read_literal_loop fuel p with
  | none => none
  | some p' =>
    let substr_len := p'.position - pos
    match allocator_alloc allocator (substr_len + 1) with
    | none => some none
    | some (ptr, a') =>
      let literal := (p.input.drop pos).take substr_len
      some (some (literal, p',
        { a' with buffer := store_bytes a'.buffer ptr (literal ++ [0]) }))

/-- C `skip_to_next_line` (lines 284-290): discard until a newline; seeing the
`'0'` sentinel first is `exit(EXIT_FAILURE)` (inner `none`). -/
def skip_to_next_line : Nat → IniParser → Option (Option IniParser)
  | 0, _ => none
  | fuel + 1, p =>
    if p.ch = 10 then some (some p)
    else if p.ch = 48 then some none
    else skip_to_next_line fuel (read_char p)

/-- C `skip_whitespace` (lines 292-297). -/
def skip_whitespace : Nat → IniParser → Option IniParser
  | 0, _ => none
  | fuel + 1, p =>
    if p.ch = 32 || p.ch = 9 || p.ch = 13 || p.ch = 10 then
      skip_whitespace fuel (read_char p)
    else some p

/-- C `parse_section_name` (lines 299-309): step past `[`, require a literal
character (assert), read the literal into `section_name`, require `]`
(assert), step past it.  Failed asserts abort the process (inner `none`). -/
def parse_section_name (p : IniParser) (allocator : LinearAllocator) (fuel : Nat) :
    Option (Option (IniParser × LinearAllocator)) :=
  let p1 := read_char p
  if is_valid_char p1.ch = false then some none
  else
    match read_literal p1 allocator fuel with
    | none => none
    | some none => some none
    | some (some (lit, p2, a')) =>
      if p2.ch = 93 then some (some (read_char { p2 with section_name := some lit }, a'))
      else some none

/-- C `parse_key_value` (lines 311-322): key literal, whitespace, `=` (assert),
whitespace, value literal, then `shasht_set` of the pair — the section name is
not part of the stored key. -/
def parse_key_value (p : IniParser) (table : SHashTable) (allocator : LinearAllocator)
    (fuel : Nat) : Option (Option (IniParser × SHashTable × LinearAllocator)) :=
  match read_literal p allocator fuel with
  | none => none
  | some none => some none
  | some (some (key, p1, a1)) =>
    match skip_whitespace fuel p1 with
    | none => none
    | some p2 =>
      if p2.ch = 61 then
        match skip_whitespace fuel (read_char p2) with
        | none => none
        | some p4 =>
          match read_literal p4 a1 fuel with
          | none => none
          | some none => some none
          | some (some (val, p5, a2)) =>
            match shasht_set table key val a2 with
            | none => none
            | some none => some none
            | some (some (_, t', a3)) => some (some (p5, t', a3))
      else some none

/-- C `parse_next` (lines 324-349): skip whitespace; dispatch on the current
character: `[` section header, `;` comment, `'0'` — the EOF sentinel, matched
before the literal-character test, so a literal digit zero also lands here —
stop with 0, a literal character starts a key/value pair, anything else is the
fatal "Illegal token".  On every continuing branch, advance one char and
return 1 (`true`). -/
def parse_next (p : IniParser) (table : SHashTable) (allocator : LinearAllocator)
    (fuel : Nat) : Option (Option (Bool × IniParser × SHashTable × LinearAllocator)) :=
  match skip_whitespace fuel p with
  | none => none
  | some p1 =>
    if p1.ch = 91 then
      match parse_section_name p1 allocator fuel with
      | none => none
      | some none => some none
      | some (some (p2, a')) => some (some (true, read_char p2, table, a'))
    else if p1.ch = 59 then
      match skip_to_next_line fuel p1 with
      | none => none
      | some none => some none
      | some (some p2) => some (some (true, read_char p2, table, allocator))
    else if p1.ch = 48 then
      some (some (false, p1, table, allocator))
    else if is_valid_char p1.ch then
      match parse_key_value p1 table allocator fuel with
      | none => none
      | some none => some none
      | some (some (p3, t', a')) => some (some (true, read_char p3, t', a'))
    else some none

/-- The `while (parse_next(...))` loop of `parse_ini` (line 353). -/
def parse_ini_loop : Nat → IniParser → SHashTable → LinearAllocator →
    Option (Option (SHashTable × IniParser × LinearAllocator))
  | 0, _, _, _ => none
  | fuel + 1, p, t, a =>
    match parse_next p t a (fuel + 1) with
    | none => none
    | some none => some none
    | some (some (false, p', t', a')) => some (some (t', p', a'))
    | some (some (true, p', t', a')) => parse_ini_loop fuel p' t' a'

/-- C `parse_ini` (lines 351-355): make the table, run `parse_next` to
completion. -/
def parse_ini (p : IniParser) (allocator : LinearAllocator) (fuel : Nat) :
    Option (Option (SHashTable × IniParser × LinearAllocator)) :=
  parse_ini_loop fuel p shasht_init allocator

/-- Whole pipeline on a byte buffer: construct the parser (`some none` when
the construction itself faults on an empty buffer) and parse with a fresh
arena, as `main` does. -/
def run_ini (input : List Nat) (fuel : Nat) :
    Option (Option (SHashTable × IniParser × LinearAllocator)) :=
  match newParser input input.length with
  | none => some none
  | some p => parse_ini p allocator_init fuel

/-
 * ------------------------------------
 * Model-inspection helpers, invariants, concrete inputs
 * ------------------------------------
-/

/-- Model inspection: the parsed table only (drops the allocator, whose byte
map has no decidable equality). -/
def run_table (input : List Nat) (fuel : Nat) : Option (Option SHashTable) :=
  (run_ini input fuel).map (Option.map (fun r => r.1))

/-- Model inspection: the value field of the slot storing `key`, scanning the
slot array directly (independent of `shasht_get` and its probe sequence). -/
def stored_val (table : SHashTable) (key : List Nat) : Option (Option (List Nat)) :=
  (table.entries.find? (fun e => e.key = some key)).map (fun e => e.val)

/-
 * Concrete inputs and keys used by the claims, as byte lists.
-/

/-- Number of slots holding a non-empty key. -/
def occupied (l : List HTEntry) : Nat := (l.filter (fun e => e.key.isSome)).length

/-- The keys currently stored in the slot array. -/
def keys_of (l : List HTEntry) : List (List Nat) := l.filterMap (fun e => e.key)

/-- The table invariant of claim C10: the stored `len` counts exactly the
occupied slots, never exceeds `cap / 2`, and the geometry is the fixed
64-slot array of `shasht_init`. -/
def inv (t : SHashTable) : Prop :=
  t.cap = 64 ∧ t.entries.length = 64 ∧ t.len = occupied t.entries ∧ t.len ≤ 32

instance : DecidablePred inv := fun t => by unfold inv; infer_instance

/-- The table seen by the caller after a `shasht_set` call: the mutated table
on success, the unchanged table when the call dies (`exit`) or its probe loop
never exits. -/
def set_table (t : SHashTable) (key value : List Nat) (a : LinearAllocator) : SHashTable :=
  match shasht_set t key value a with
  | some (some r) => r.2.1
  | _ => t

/-- Predicate `slot_path_ok t i`: if slot `i` stores a key, that slot is reached by the
key's probe sequence — every earlier probe position is occupied by a different
key.  Tables built solely through `shasht_set` satisfy this at every slot. -/
def slot_path_ok (t : SHashTable) (i : Nat) : Prop :=
  ∀ k, (t.entries.getD i emptyEntry).key = some k →
    ∃ j, j < t.cap ∧ (land64 (hash_key k) (t.cap - 1) + j) % t.cap = i ∧
      ∀ e, e < j →
        (t.entries.getD ((land64 (hash_key k) (t.cap - 1) + e) % t.cap) emptyEntry).key ≠ none ∧
        (t.entries.getD ((land64 (hash_key k) (t.cap - 1) + e) % t.cap) emptyEntry).key ≠ some k

instance slot_path_ok_decidable (t : SHashTable) (i : Nat) : Decidable (slot_path_ok t i) :=
  match h : (t.entries.getD i emptyEntry).key with
  | none => isTrue (by intro k hk; rw [h] at hk; exact absurd hk (by simp))
  | some k0 =>
    decidable_of_iff
      (∃ j, j < t.cap ∧ (land64 (hash_key k0) (t.cap - 1) + j) % t.cap = i ∧
        ∀ e, e < j →
          (t.entries.getD ((land64 (hash_key k0) (t.cap - 1) + e) % t.cap) emptyEntry).key ≠ none ∧
          (t.entries.getD ((land64 (hash_key k0) (t.cap - 1) + e) % t.cap) emptyEntry).key ≠ some k0)
      (by
        constructor
        · intro hex k hk
          rw [h] at hk
          obtain rfl : k0 = k := Option.some.inj hk
          exact hex
        · intro hall
          exact hall k0 h)

/-- The well-formedness invariant of API-built tables: the counting invariant
plus probe-path reachability of every stored key. -/
def wf (t : SHashTable) : Prop := inv t ∧ ∀ i, i < t.cap → slot_path_ok t i

instance : DecidablePred wf := fun t => by unfold wf; infer_instance

/-- ASCII bytes of a character list. -/
def ascii (cs : List Char) : List Nat := cs.map Char.toNat

/-- The spec's example input: `[db]\nhost=localhost\nport=5432\n;comment\n[cache]\nhost=redis\n`. -/
def exampleInput : List Nat :=
  ascii ['[', 'd', 'b', ']', '\n',
         'h', 'o', 's', 't', '=', 'l', 'o', 'c', 'a', 'l', 'h', 'o', 's', 't', '\n',
         'p', 'o', 'r', 't', '=', '5', '4', '3', '2', '\n',
         ';', 'c', 'o', 'm', 'm', 'e', 'n', 't', '\n',
         '[', 'c', 'a', 'c', 'h', 'e', ']', '\n',
         'h', 'o', 's', 't', '=', 'r', 'e', 'd', 'i', 's', '\n']

def key_host : List Nat := ascii ['h', 'o', 's', 't']

def key_port : List Nat := ascii ['p', 'o', 'r', 't']

def val_localhost : List Nat := ascii ['l', 'o', 'c', 'a', 'l', 'h', 'o', 's', 't']

def val_redis : List Nat := ascii ['r', 'e', 'd', 'i', 's']

-- sanity checks (model evaluation)

def key_e : List Nat := ascii ['e']

def key_b : List Nat := ascii ['b']

/-- Thirty-three pairwise distinct two-byte keys `"k0"`, `"k1"`, … -/
def keys33 : List (List Nat) := (List.range 33).map (fun n => [107, 48 + n])

def val_v : List Nat := ascii ['v']

/-- Driver: insert each key with the fixed value `"v"` through `shasht_set`,
threading table and arena; stops on the first fatal (`some none`) or
non-terminating (`none`) call. -/
def insert_list : List (List Nat) → SHashTable → LinearAllocator →
    Option (Option (SHashTable × LinearAllocator))
  | [], t, a => some (some (t, a))
  | k :: ks, t, a =>
    match shasht_set t k val_v a with
    | none => none
    | some none => some none
    | some (some (_, t', a')) => insert_list ks t' a'

/-
 * ------------------------------------
 * Lemmas: the C bit masks as ideal arithmetic
 * ------------------------------------
-/

lemma landAux_zero (fuel x : Nat) : landAux fuel x 0 = 0 := by
  induction fuel generalizing x with
  | zero => rfl
  | succ f ih => simp [landAux, Nat.div_zero, ih]

/-- The mask `x & (2 ^ k - 1)` keeps the low `k` bits. -/
lemma landAux_ones (k : Nat) : ∀ fuel x, k ≤ fuel → landAux fuel x (2 ^ k - 1) = x % 2 ^ k := by
  induction k with
  | zero => intro fuel x _; simp [landAux_zero, Nat.mod_one]
  | succ j ih =>
    intro fuel x hk
    obtain ⟨f, rfl⟩ : ∃ f, fuel = f + 1 := ⟨fuel - 1, by omega⟩
    have h2 : 2 ^ (j + 1) = 2 * 2 ^ j := by rw [Nat.pow_succ]; ring
    have hmod : (2 ^ (j + 1) - 1) % 2 = 1 := by
      have : 0 < 2 ^ j := Nat.pos_pow_of_pos j (by omega)
      omega
    have hdiv : (2 ^ (j + 1) - 1) / 2 = 2 ^ j - 1 := by
      have : 0 < 2 ^ j := Nat.pos_pow_of_pos j (by omega)
      omega
    rw [landAux, hmod, hdiv, ih f (x / 2) (by omega), Nat.mul_one, h2, Nat.mod_mul]

/-- The mask `x & ~7` on a 64-bit operand clears the low 3 bits: it is
`x` rounded down to a multiple of 8. -/
lemma land64_mask (x : Nat) (hx : x < 2 ^ 64) : land64 x (2 ^ 64 - 8) = 8 * (x / 8) := by
  have e3 : (2 : Nat) ^ 64 - 8 = 2 * (2 ^ 63 - 4) := by norm_num
  have e2 : (2 : Nat) ^ 63 - 4 = 2 * (2 ^ 62 - 2) := by norm_num
  have e1 : (2 : Nat) ^ 62 - 2 = 2 * (2 ^ 61 - 1) := by norm_num
  have step : ∀ f y m, landAux (f + 1) y (2 * m) = 2 * landAux f (y / 2) m := by
    intro f y m
    rw [landAux, Nat.mul_mod_right, Nat.mul_zero, Nat.zero_add,
      Nat.mul_div_cancel_left _ (by omega : (0:Nat) < 2)]
  have h8 : x / 8 < 2 ^ 61 := by omega
  calc land64 x (2 ^ 64 - 8)
      = 2 * landAux 63 (x / 2) (2 ^ 63 - 4) := by rw [land64, e3, step]
    _ = 2 * (2 * landAux 62 (x / 2 / 2) (2 ^ 62 - 2)) := by rw [e2, step]
    _ = 2 * (2 * (2 * landAux 61 (x / 2 / 2 / 2) (2 ^ 61 - 1))) := by rw [e1, step]
    _ = 8 * (x / 8 % 2 ^ 61) := by
        rw [landAux_ones 61 61 _ (by omega), Nat.div_div_eq_div_mul, Nat.div_div_eq_div_mul]
        ring_nf
    _ = 8 * (x / 8) := by rw [Nat.mod_eq_of_lt h8]

/-- The index `hash & (cap - 1)` for the table's capacity 64 is reduction mod 64. -/
lemma land64_63 (h : Nat) : land64 h 63 = h % 64 := by
  have : (63 : Nat) = 2 ^ 6 - 1 := by norm_num
  rw [this, land64, landAux_ones 6 64 h (by omega)]
  norm_num

/-
 * ------------------------------------
 * Claim C6: allocator_alloc
 * ------------------------------------
-/

/-
 * ------------------------------------
 * Lemmas: probe loops and slot counting
 * ------------------------------------
-/

/-- The C advance `index++; if (index >= cap) index = 0;` is `(index+1) % cap`
when `index < cap`. -/
lemma probe_step_eq {index cap : Nat} (h : index < cap) :
    (if index + 1 ≥ cap then 0 else index + 1) = (index + 1) % cap := by
  split
  · have : index + 1 = cap := by omega
    simp [this, Nat.mod_self]
  · exact (Nat.mod_eq_of_lt (by omega)).symm

lemma set_probe_result_lt {entries : List HTEntry} {cap : Nat} {key : List Nat}
    {fuel index i : Nat} {b : Bool}
    (hcap : 0 < cap) (hidx : index < cap)
    (h : set_probe entries cap key fuel index = some (i, b)) : i < cap := by
  induction fuel generalizing index with
  | zero => simp [set_probe] at h
  | succ f ih =>
    rw [set_probe] at h
    cases he : (entries.getD index emptyEntry).key with
    | none =>
      simp only [he] at h
      obtain ⟨h1, -⟩ := Prod.mk.injEq .. ▸ Option.some.injEq .. ▸ h
      omega
    | some k =>
      simp only [he] at h
      by_cases hk : k = key
      · rw [if_pos hk] at h
        obtain ⟨h1, -⟩ := Prod.mk.injEq .. ▸ Option.some.injEq .. ▸ h
        omega
      · rw [if_neg hk, probe_step_eq hidx] at h
        exact ih (Nat.mod_lt _ hcap) h

lemma set_probe_false_key {entries : List HTEntry} {cap : Nat} {key : List Nat}
    {fuel index i : Nat}
    (h : set_probe entries cap key fuel index = some (i, false)) :
    (entries.getD i emptyEntry).key = none := by
  induction fuel generalizing index with
  | zero => simp [set_probe] at h
  | succ f ih =>
    rw [set_probe] at h
    cases he : (entries.getD index emptyEntry).key with
    | none =>
      simp only [he] at h
      obtain ⟨h1, -⟩ := Prod.mk.injEq .. ▸ Option.some.injEq .. ▸ h
      rw [← h1]; exact he
    | some k =>
      simp only [he] at h
      by_cases hk : k = key
      · rw [if_pos hk] at h
        exact absurd (Prod.mk.injEq .. ▸ Option.some.injEq .. ▸ h).2 (by simp)
      · rw [if_neg hk] at h; exact ih h

lemma set_probe_true_key {entries : List HTEntry} {cap : Nat} {key : List Nat}
    {fuel index i : Nat}
    (h : set_probe entries cap key fuel index = some (i, true)) :
    (entries.getD i emptyEntry).key = some key := by
  induction fuel generalizing index with
  | zero => simp [set_probe] at h
  | succ f ih =>
    rw [set_probe] at h
    cases he : (entries.getD index emptyEntry).key with
    | none =>
      simp only [he] at h
      exact absurd (Prod.mk.injEq .. ▸ Option.some.injEq .. ▸ h).2 (by simp)
    | some k =>
      simp only [he] at h
      by_cases hk : k = key
      · rw [if_pos hk] at h
        obtain ⟨h1, -⟩ := Prod.mk.injEq .. ▸ Option.some.injEq .. ▸ h
        rw [← h1, he, hk]
      · rw [if_neg hk] at h; exact ih h

/-- If every slot is occupied, `occupied` equals the length; contrapositive:
fewer occupied slots than entries means an empty slot exists. -/
lemma exists_empty_slot {l : List HTEntry} (h : occupied l < l.length) :
    ∃ i, i < l.length ∧ (l.getD i emptyEntry).key = none := by
  induction l with
  | nil => simp [occupied] at h
  | cons e l' ih =>
    cases he : e.key with
    | none => exact ⟨0, by simp, by simp [he]⟩
    | some k =>
      have hocc : occupied (e :: l') = occupied l' + 1 := by
        simp [occupied, List.filter_cons, he]
      rw [hocc] at h
      obtain ⟨i, hi, hkey⟩ := ih (by simpa using h)
      exact ⟨i + 1, by simpa using hi, by simpa using hkey⟩

/-- The probe loop of `shasht_set` exits within `j + 1` iterations if slot
`(start + j) % cap` stops it (empty or matching). -/
lemma set_probe_stop {entries : List HTEntry} {cap : Nat} {key : List Nat} :
    ∀ j, ∀ fuel start, start < cap → j < fuel →
    ((entries.getD ((start + j) % cap) emptyEntry).key = none ∨
     (entries.getD ((start + j) % cap) emptyEntry).key = some key) →
    (set_probe entries cap key fuel start).isSome := by
  intro j
  induction j using Nat.strong_induction_on with
  | _ j ih =>
    intro fuel start hstart hfuel hstop
    obtain ⟨f, rfl⟩ : ∃ f, fuel = f + 1 := ⟨fuel - 1, by omega⟩
    cases he : (entries.getD start emptyEntry).key with
    | none => rw [set_probe]; simp only [he]; rfl
    | some k =>
      rw [set_probe]
      simp only [he]
      by_cases hk : k = key
      · simp [hk]
      · rw [if_neg hk]
        have hj : j ≠ 0 := by
          rintro rfl
          rw [Nat.add_zero, Nat.mod_eq_of_lt hstart] at hstop
          rcases hstop with h0 | h0 <;> rw [he] at h0
          · exact Option.noConfusion h0
          · exact hk (Option.some.injEq .. ▸ h0)
        rw [probe_step_eq hstart]
        refine ih (j - 1) (by omega) f ((start + 1) % cap) (Nat.mod_lt _ (by omega)) (by omega) ?_
        have harith : ((start + 1) % cap + (j - 1)) % cap = (start + j) % cap := by
          rw [Nat.mod_add_mod]
          congr 1
          omega
        rw [harith]
        exact hstop

/-- The probe loop of `shasht_get` exits within `j + 1` iterations if slot
`(start + j) % cap` is empty (it may exit even earlier through the slot-0
comparison). -/
lemma get_probe_stop {entries : List HTEntry} {cap : Nat} {key : List Nat} :
    ∀ j, ∀ fuel start, start < cap → j < fuel →
    (entries.getD ((start + j) % cap) emptyEntry).key = none →
    (get_probe entries cap key fuel start).isSome := by
  intro j
  induction j using Nat.strong_induction_on with
  | _ j ih =>
    intro fuel start hstart hfuel hstop
    obtain ⟨f, rfl⟩ : ∃ f, fuel = f + 1 := ⟨fuel - 1, by omega⟩
    cases he : (entries.getD start emptyEntry).key with
    | none => rw [get_probe]; simp only [he]; rfl
    | some k =>
      have hj : j ≠ 0 := by
        rintro rfl
        rw [Nat.add_zero, Nat.mod_eq_of_lt hstart] at hstop
        rw [he] at hstop
        exact Option.noConfusion hstop
      cases h0 : (entries.getD 0 emptyEntry).key with
      | none => rw [get_probe]; simp only [he, h0]; rfl
      | some k0 =>
        rw [get_probe]
        simp only [he, h0]
        by_cases hk : key = k0
        · simp [hk]
        · rw [if_neg hk, probe_step_eq hstart]
          refine ih (j - 1) (by omega) f ((start + 1) % cap) (Nat.mod_lt _ (by omega)) (by omega) ?_
          have harith : ((start + 1) % cap + (j - 1)) % cap = (start + j) % cap := by
            rw [Nat.mod_add_mod]
            congr 1
            omega
          rw [harith]
          exact hstop

/-- An empty slot at some index `i < cap` is an empty slot at some probe
distance `j < cap` from any start `< cap`. -/
lemma empty_slot_on_probe_path (cap : Nat) {l : List HTEntry} {i : Nat}
    (hi : i < cap) (hkey : (l.getD i emptyEntry).key = none)
    (start : Nat) (hstart : start < cap) :
    ∃ j, j < cap ∧ (l.getD ((start + j) % cap) emptyEntry).key = none := by
  by_cases hle : start ≤ i
  · refine ⟨i - start, by omega, ?_⟩
    have : start + (i - start) = i := by omega
    rw [this, Nat.mod_eq_of_lt hi]
    exact hkey
  · refine ⟨i + cap - start, by omega, ?_⟩
    have : start + (i + cap - start) = i + cap := by omega
    rw [this, Nat.add_mod_right, Nat.mod_eq_of_lt hi]
    exact hkey

/-- If the slots along the probe sequence before distance `j` are occupied by
keys different from `key` and the slot at distance `j` stores `key`, the probe
loop of `shasht_set` stops exactly there, reporting a match. -/
lemma set_probe_path {entries : List HTEntry} {cap : Nat} {key : List Nat} :
    ∀ j fuel s, s < cap → j < fuel →
    (∀ e, e < j → (entries.getD ((s + e) % cap) emptyEntry).key ≠ none ∧
                  (entries.getD ((s + e) % cap) emptyEntry).key ≠ some key) →
    (entries.getD ((s + j) % cap) emptyEntry).key = some key →
    set_probe entries cap key fuel s = some ((s + j) % cap, true) := by
  intro j
  induction j with
  | zero =>
    intro fuel s hs hfuel _ htarget
    obtain ⟨f, rfl⟩ : ∃ f, fuel = f + 1 := ⟨fuel - 1, by omega⟩
    rw [Nat.add_zero, Nat.mod_eq_of_lt hs] at htarget
    rw [set_probe]
    simp only [htarget]
    rw [if_pos trivial, Nat.add_zero, Nat.mod_eq_of_lt hs]
  | succ j ih =>
    intro fuel s hs hfuel hprior htarget
    obtain ⟨f, rfl⟩ : ∃ f, fuel = f + 1 := ⟨fuel - 1, by omega⟩
    have h0 := hprior 0 (by omega)
    rw [Nat.add_zero, Nat.mod_eq_of_lt hs] at h0
    cases he : (entries.getD s emptyEntry).key with
    | none => exact absurd he h0.1
    | some k =>
      have hk : k ≠ key := by
        intro hkk
        exact h0.2 (by rw [he, hkk])
      rw [set_probe]
      simp only [he]
      rw [if_neg hk, probe_step_eq hs]
      have harith : ∀ m, ((s + 1) % cap + m) % cap = (s + (m + 1)) % cap := by
        intro m
        rw [Nat.mod_add_mod]
        congr 1
        omega
      rw [ih f ((s + 1) % cap) (Nat.mod_lt _ (by omega)) (by omega) ?_ ?_]
      · rw [harith]
      · intro e he'
        rw [harith]
        exact hprior (e + 1) (by omega)
      · rw [harith]
        exact htarget

/-- The probe start index `hash & (cap - 1)` is below 64 for the fixed
64-capacity table. -/
lemma probe_start_lt (key : List Nat) : land64 (hash_key key) (64 - 1) < 64 := by
  have : (64 : Nat) - 1 = 63 := by norm_num
  rw [this, land64_63]
  exact Nat.mod_lt _ (by omega)

lemma occupied_cons (e : HTEntry) (l : List HTEntry) :
    occupied (e :: l) = (if e.key.isSome then 1 else 0) + occupied l := by
  simp only [occupied, List.filter_cons]
  split <;> simp [Nat.add_comm]

/-- Filling a previously empty slot raises the occupied count by one. -/
lemma occupied_set_of_none {l : List HTEntry} {e' : HTEntry} :
    ∀ {i : Nat}, i < l.length → (l.getD i emptyEntry).key = none → e'.key.isSome →
    occupied (l.set i e') = occupied l + 1 := by
  induction l with
  | nil => intro i hi _ _; simp at hi
  | cons e l' ih =>
    intro i hi hkey hsome
    cases i with
    | zero =>
      simp only [List.getD_cons_zero] at hkey
      simp only [List.set_cons_zero, occupied_cons, hsome, hkey]
      simp [Option.isSome]
      omega
    | succ n =>
      simp only [List.getD_cons_succ] at hkey
      simp only [List.set_cons_succ, occupied_cons,
        ih (by simpa using hi) hkey hsome]
      omega

/-- Overwriting an occupied slot with an occupied entry keeps the count. -/
lemma occupied_set_isSome {l : List HTEntry} {e' : HTEntry} :
    ∀ {i : Nat}, i < l.length → ((l.getD i emptyEntry).key).isSome → e'.key.isSome →
    occupied (l.set i e') = occupied l := by
  induction l with
  | nil => intro i hi _ _; simp at hi
  | cons e l' ih =>
    intro i hi hkey hsome
    cases i with
    | zero =>
      simp only [List.getD_cons_zero] at hkey
      simp only [List.set_cons_zero, occupied_cons, hsome, hkey]
    | succ n =>
      simp only [List.getD_cons_succ] at hkey
      simp only [List.set_cons_succ, occupied_cons,
        ih (by simpa using hi) hkey hsome]

/-- A key read out of a slot is among the stored keys. -/
lemma keys_of_getD_mem {l : List HTEntry} {k : List Nat} :
    ∀ {i : Nat}, i < l.length → (l.getD i emptyEntry).key = some k → k ∈ keys_of l := by
  induction l with
  | nil => intro i hi _; simp at hi
  | cons e l' ih =>
    intro i hi hkey
    cases i with
    | zero =>
      simp only [List.getD_cons_zero] at hkey
      simp [keys_of, List.filterMap_cons, hkey]
    | succ n =>
      simp only [List.getD_cons_succ] at hkey
      have := ih (by simpa using hi) hkey
      simp only [keys_of, List.filterMap_cons]
      cases e.key <;> simp [keys_of] at this ⊢ <;> tauto

/-- After storing `k` in a slot, every stored key is `k` or was already
stored. -/
lemma keys_of_set_subset {l : List HTEntry} {k : List Nat} {v : Option (List Nat)} :
    ∀ {i : Nat} {k' : List Nat}, k' ∈ keys_of (l.set i ⟨some k, v⟩) →
    k' = k ∨ k' ∈ keys_of l := by
  induction l with
  | nil => intro i k' h; simp [keys_of] at h
  | cons e l' ih =>
    intro i k' h
    cases i with
    | zero =>
      simp only [List.set_cons_zero, keys_of, List.filterMap_cons] at h
      simp only [keys_of, List.filterMap_cons]
      cases he : e.key <;> simp [he] at h ⊢ <;> tauto
    | succ n =>
      simp only [List.set_cons_succ, keys_of, List.filterMap_cons] at h
      simp only [keys_of, List.filterMap_cons]
      cases he : e.key with
      | none =>
        simp only [he] at h
        rcases ih h with h' | h'
        · exact Or.inl h'
        · exact Or.inr h'
      | some ke =>
        simp only [he, List.mem_cons] at h
        rcases h with h | h
        · refine Or.inr ?_
          simp only [keys_of, List.filterMap_cons, he, List.mem_cons]
          exact Or.inl h
        · rcases ih h with h1 | h1
          · exact Or.inl h1
          · refine Or.inr ?_
            simp only [keys_of, List.filterMap_cons, he, List.mem_cons]
            exact Or.inr h1

/-
 * ------------------------------------
 * Lemmas: allocation bounds and insertion runs
 * ------------------------------------
-/

/-- A small allocation (≤ 8 bytes) from an arena whose offset is within the
first `8 * m` bytes of a 2048-byte arena succeeds and lands within
`8 * (m + 1)`. -/
lemma alloc_small_success {a : LinearAllocator} {m : Nat} (size : Nat)
    (hoff : a.offset ≤ 8 * m)
    (hcap : a.cap = 2048) (hm : 8 * m + 8 ≤ 2048) (hsize : size ≤ 8) :
    ∃ ptr a', allocator_alloc a size = some (ptr, a') ∧ a'.offset ≤ 8 * (m + 1) ∧
      a'.cap = 2048 := by
  have h7 : a.offset + 7 < 2 ^ 64 := by omega
  have hal : land64 ((a.offset + 7) % 2 ^ 64) (2 ^ 64 - 8) = 8 * ((a.offset + 7) / 8) := by
    rw [Nat.mod_eq_of_lt h7, land64_mask _ h7]
  have halle : 8 * ((a.offset + 7) / 8) ≤ 8 * m := by omega
  have hsum : (8 * ((a.offset + 7) / 8) + size) % 2 ^ 64 = 8 * ((a.offset + 7) / 8) + size :=
    Nat.mod_eq_of_lt (by omega)
  have halloc : allocator_alloc a size = some (8 * ((a.offset + 7) / 8),
      { buffer := fun i => if 8 * ((a.offset + 7) / 8) ≤ i ∧
          i < 8 * ((a.offset + 7) / 8) + size then 0 else a.buffer i,
        cap := a.cap, offset := 8 * ((a.offset + 7) / 8) + size }) := by
    rw [allocator_alloc]
    simp only [hal, hsum]
    rw [if_neg (by omega)]
  refine ⟨_, _, halloc, ?_, hcap⟩
  show 8 * ((a.offset + 7) / 8) + size ≤ 8 * (m + 1)
  omega

/-- A `str_dup` of a short key from such an arena succeeds, returns the key
itself, and keeps the offset within the next 8-byte step. -/
lemma str_dup_small_success {c : List Nat} {a : LinearAllocator} {m : Nat}
    (hoff : a.offset ≤ 8 * m) (hcap : a.cap = 2048) (hm : 8 * m + 8 ≤ 2048)
    (hlen : c.length < 8) :
    ∃ a', str_dup c a = some (c, a') ∧ a'.offset ≤ 8 * (m + 1) ∧ a'.cap = 2048 := by
  obtain ⟨ptr, a1, hal, hoff1, hcap1⟩ :=
    alloc_small_success (c.length + 1) hoff hcap hm (by omega)
  refine ⟨{ a1 with buffer := store_bytes a1.buffer ptr (c ++ [0]) }, ?_, hoff1, hcap1⟩
  rw [str_dup, hal]

/-- Inserting a block of distinct fresh short keys into a well-counted table
backed by a big-enough fresh arena: every insertion succeeds, the length grows
by exactly the number of keys, and every stored key is an inserted or an old
one. -/
lemma insert_go : ∀ (ks : List (List Nat)) (t : SHashTable) (a : LinearAllocator),
    inv t → ks.Nodup → (∀ k, k ∈ ks → k ∉ keys_of t.entries) →
    (∀ k, k ∈ ks → k.length < 8) →
    t.len + ks.length ≤ 32 → a.cap = 2048 → a.offset ≤ 8 * t.len →
    ∃ t' a', insert_list ks t a = some (some (t', a')) ∧
      t'.len = t.len + ks.length ∧ inv t' ∧ a'.cap = 2048 ∧ a'.offset ≤ 8 * t'.len ∧
      (∀ k', k' ∈ keys_of t'.entries → k' ∈ ks ∨ k' ∈ keys_of t.entries) := by
  intro ks
  induction ks with
  | nil =>
    intro t a hinv _ _ _ _ hacap haoff
    exact ⟨t, a, rfl, by simp, hinv, hacap, haoff, fun k' h => Or.inr h⟩
  | cons k ks ih =>
    intro t a hinv hnd hfresh hsmall hcount hacap haoff
    obtain ⟨hcap, hlength, hlen_occ, hlen32⟩ := hinv
    obtain ⟨hknotks, hndks⟩ := List.nodup_cons.mp hnd
    have hlenlt : t.len < 32 := by
      simp only [List.length_cons] at hcount
      omega
    have hstart : land64 (hash_key k) (t.cap - 1) < t.cap := by
      rw [hcap]; exact probe_start_lt k
    have hocc : occupied t.entries < t.entries.length := by omega
    obtain ⟨iempty, hie, hikey⟩ := exists_empty_slot hocc
    obtain ⟨j, hj, hjkey⟩ :=
      empty_slot_on_probe_path t.cap (by omega) hikey _ hstart
    have hsome : (set_probe t.entries t.cap k t.cap
        (land64 (hash_key k) (t.cap - 1))).isSome :=
      set_probe_stop j t.cap _ hstart (by omega) (Or.inl hjkey)
    obtain ⟨⟨i, b⟩, hp⟩ := Option.isSome_iff_exists.mp hsome
    have hi : i < t.cap := set_probe_result_lt (by omega) hstart hp
    cases b with
    | true =>
      exact absurd (keys_of_getD_mem (by omega) (set_probe_true_key hp))
        (hfresh k (List.mem_cons_self k ks))
    | false =>
      have hnone := set_probe_false_key hp
      obtain ⟨a1, hdup, hoff1, hcap1⟩ :=
        str_dup_small_success (m := t.len) haoff hacap (by omega)
          (hsmall k (List.mem_cons_self k ks))
      have hset : shasht_set t k val_v a =
          some (some (k, { t with entries := t.entries.set i ⟨some k, some val_v⟩, len := t.len + 1 }, a1)) := by
        rw [shasht_set, if_neg (by omega)]
        simp only [hp, hdup]
      have hinv1 : inv { t with entries := t.entries.set i ⟨some k, some val_v⟩, len := t.len + 1 } := by
        refine ⟨hcap, by simpa using hlength, ?_, by show t.len + 1 ≤ 32; omega⟩
        have hocc1 : occupied (t.entries.set i ⟨some k, some val_v⟩) =
            occupied t.entries + 1 := occupied_set_of_none (by omega) hnone rfl
        show t.len + 1 = occupied (t.entries.set i ⟨some k, some val_v⟩)
        rw [hocc1]
        omega
      have hfresh1 : ∀ k', k' ∈ ks →
          k' ∉ keys_of (t.entries.set i ⟨some k, some val_v⟩) := by
        intro k' hk' hmem
        rcases keys_of_set_subset hmem with rfl | hmem'
        · exact hknotks hk'
        · exact hfresh k' (List.mem_cons_of_mem _ hk') hmem'
      obtain ⟨t', a', hrun, hlen', hinv', hcap', hoff', hsub⟩ :=
        ih { t with entries := t.entries.set i ⟨some k, some val_v⟩, len := t.len + 1 } a1
          hinv1 hndks hfresh1 (fun k' hk' => hsmall k' (List.mem_cons_of_mem _ hk'))
          (by simp only [List.length_cons] at hcount ⊢; omega) hcap1
          (by show a1.offset ≤ 8 * (t.len + 1); exact hoff1)
      refine ⟨t', a', ?_, ?_, hinv', hcap', hoff', ?_⟩
      · rw [insert_list, hset]
        exact hrun
      · rw [hlen']
        simp only [List.length_cons]
        omega
      · intro k' hk'
        rcases hsub k' hk' with h1 | h1
        · exact Or.inl (List.mem_cons_of_mem _ h1)
        · rcases keys_of_set_subset h1 with rfl | h2
          · exact Or.inl (List.mem_cons_self _ _)
          · exact Or.inr h2

lemma insert_list_append (xs ys : List (List Nat)) (t : SHashTable) (a : LinearAllocator) :
    insert_list (xs ++ ys) t a =
      match insert_list xs t a with
      | none => none
      | some none => some none
      | some (some (t', a')) => insert_list ys t' a' := by
  induction xs generalizing t a with
  | nil => rfl
  | cons x xs ih =>
    show insert_list (x :: (xs ++ ys)) t a = _
    rw [insert_list, insert_list]
    cases shasht_set t x val_v a with
    | none => rfl
    | some o =>
      cases o with
      | none => rfl
      | some r => exact ih r.2.1 r.2.2

/-
 * ------------------------------------
 * Lemmas: scanner stepping
 * ------------------------------------
-/

lemma read_char_struct (p : IniParser) :
    (read_char p).input = p.input ∧ (read_char p).input_len = p.input_len ∧
    (read_char p).read_position = p.read_position + 1 := by
  rw [read_char]
  split <;> exact ⟨rfl, rfl, rfl⟩

lemma read_char_ch (p : IniParser) :
    (read_char p).ch =
      if p.read_position ≥ p.input_len then 48 else p.input.getD p.read_position 0 := by
  rw [read_char]
  split <;> rfl

/-- The scan loop of `read_literal` never exits — for any fuel — when the
current character and every remaining input byte are literal characters: past
the end of input `read_char` keeps delivering the sentinel `'0'`, which is
itself a literal character (a digit), so `is_valid_char` never turns false.
This is the C loop running forever. -/
lemma read_literal_loop_diverges :
    ∀ (fuel : Nat) (p : IniParser),
      is_valid_char p.ch = true →
      (∀ i, p.read_position ≤ i → i < p.input_len → is_valid_char (p.input.getD i 0) = true) →
      read_literal_loop fuel p = none := by
  intro fuel
  induction fuel with
  | zero => intro p _ _; rfl
  | succ f ih =>
    intro p hch hall
    rw [read_literal_loop, if_pos hch]
    obtain ⟨hin, hlen, hrp⟩ := read_char_struct p
    apply ih
    · rw [read_char_ch]
      split
      · decide
      · next hend => exact hall _ (Nat.le_refl _) (by omega)
    · intro i h1 h2
      rw [hin]
      rw [hlen] at h2
      rw [hrp] at h1
      exact hall i (by omega) h2

/-
 * ------------------------------------
 * Claim theorems
 * ------------------------------------
-/

/-- Claim C1: `shasht_get` does not return the value of the first probed slot
whose stored key equals the query.  After inserting `"e"` (home slot 0) and
`"b"` (home slot 37), the slot probed first for `"b"` stores exactly `"b"`
with value `"v"` — but `shasht_get` compares the query against
`table->entries->key`, the key of slot 0 (`"e"`), misses, walks to the next
empty slot and reports `NotFound` for a present key. -/
theorem claim_C1_get_probes_slot_zero :
    (insert_list [key_e, key_b] shasht_init allocator_init).map (Option.map
      (fun r => (shasht_get r.1 key_b, stored_val r.1 key_b))) =
    some (some (some GetOutcome.notFound, some (some val_v))) := by decide

/-- Claim C2, counterexample.  The claim says the `C/2`-th (32nd) insertion
attempt of a distinct key fails.  In the code the check `len >= cap / 2` runs
before the insertion, so the 32nd insertion still sees `len = 31 < 32` and
succeeds: inserting 32 distinct keys yields a table of length 32 (capacity
still 64) with no failure. -/
theorem claim_C2_counterexample :
    keys33.Nodup ∧
    (insert_list (keys33.take 32) shasht_init allocator_init).map
      (Option.map (fun r => (r.1.len, r.1.cap))) = some (some (32, 64)) := by
  constructor
  · decide
  · decide

/-- Claim C2 as amended: for the fixed capacity `C = 64`, inserting up to
`C / 2 = 32` distinct keys into a fresh table always succeeds (shown here for
short keys, which a fresh 2048-byte arena can always copy), and it is the
`(C / 2 + 1)`-th = 33rd insertion attempt of a distinct key that fails with
the load-factor `OutOfMemory` exit — the check `len >= cap / 2` runs before
every insertion; the capacity stays 64 throughout, so the table never
resizes. -/
theorem claim_C2_amended (keys : List (List Nat)) (hlen : keys.length = 33)
    (hnd : keys.Nodup) (hsmall : ∀ k, k ∈ keys → k.length < 8) :
    (∃ t a, insert_list (keys.take 32) shasht_init allocator_init = some (some (t, a)) ∧
      t.len = 32 ∧ t.cap = 64) ∧
    insert_list keys shasht_init allocator_init = some none := by
  have hkeys0 : keys_of shasht_init.entries = [] := by decide
  have htake : (keys.take 32).length = 32 := by
    rw [List.length_take]
    omega
  obtain ⟨t32, a32, hrun, hlen32, hinv32, hcap32, hoff32, -⟩ :=
    insert_go (keys.take 32) shasht_init allocator_init (by decide)
      (hnd.sublist (List.take_sublist _ _))
      (fun k _ => by rw [hkeys0]; exact List.not_mem_nil k)
      (fun k hk => hsmall k (List.take_subset _ _ hk))
      (by rw [htake]; decide) rfl (by decide)
  have hlen32' : t32.len = 32 := by
    rw [hlen32, htake]
    decide
  refine ⟨⟨t32, a32, hrun, hlen32', hinv32.1⟩, ?_⟩
  have hsplit : keys = keys.take 32 ++ keys.drop 32 := (List.take_append_drop 32 keys).symm
  have hdrop : ∃ klast, keys.drop 32 = [klast] := by
    have : (keys.drop 32).length = 1 := by
      rw [List.length_drop, hlen]
    cases hd : keys.drop 32 with
    | nil => rw [hd] at this; simp at this
    | cons x xs =>
      rw [hd] at this
      simp only [List.length_cons] at this
      have hxs : xs = [] := List.eq_nil_of_length_eq_zero (by omega)
      exact ⟨x, by rw [hxs]⟩
  obtain ⟨klast, hklast⟩ := hdrop
  conv_lhs => rw [hsplit]
  rw [insert_list_append, hrun]
  show insert_list (keys.drop 32) t32 a32 = some none
  rw [hklast]
  have hstop : shasht_set t32 klast val_v a32 = some none := by
    rw [shasht_set, if_pos (by rw [hlen32', hinv32.1])]
  rw [insert_list, hstop]

/-- Claim C2 amended, witness: the 33 concrete distinct keys `keys33`; the
33rd insertion fails with the load-factor exit. -/
theorem claim_C2_amended_witness :
    insert_list keys33 shasht_init allocator_init = some none :=
  (claim_C2_amended keys33 (by decide) (by decide) (by decide)).2

/-
 * ------------------------------------
 * Claims C3, C4, C8, C9: parser behavior at concrete inputs
 * ------------------------------------
-/

/-- Claim C3: the spec's example input parses without error, but the single
flat table keyed by the literal key loses the section scoping the claim
requires: the final table has exactly the two entries `host` and `port`, and
the value stored for `host` is `"redis"` — the later `[cache]` section's
assignment overwrote `[db]`'s `host=localhost`, so no lookup of `host` can
return `"localhost"`. -/
theorem claim_C3_flat_table_collision :
    (run_table exampleInput 300).map (Option.map (fun t => t.len)) = some (some 2) ∧
    (run_table exampleInput 300).map (Option.map (fun t => stored_val t key_host)) =
      some (some (some (some val_redis))) ∧
    (run_table exampleInput 300).map (Option.map (fun t => stored_val t key_port)) =
      some (some (some (some (ascii ['5', '4', '3', '2'])))) := by
  refine ⟨?_, ?_, ?_⟩ <;> decide

/-- Claim C4: the end-of-input sentinel is the character `'0'` itself
(`read_char` writes `parser->ch = '0'` at EOF and `parse_next` matches
`case '0'` before the literal test), so on the input `0=x\n` — where the
claim requires the digit to start an ordinary key/value pair — the top-level
loop stops "successfully" at once: no entry is parsed and the scan position
is still 0 of 4 bytes. -/
theorem claim_C4_digit_sentinel :
    (run_ini (ascii ['0', '=', 'x', '\n']) 100).map (Option.map
      (fun r => (r.1.len, r.2.1.position, (ascii ['0', '=', 'x', '\n']).length))) =
    some (some (0, 0, 4)) := by
  decide

/-- Claim C5: an input ending mid-comment fails cleanly — `skip_to_next_line`
meets the EOF sentinel and exits the process (`some none`, a terminating error
result) — but an input ending mid-literal does not: for the input `key`,
`run_ini` returns `none` at every fuel, i.e. the scan loop of `read_literal`
never terminates, because the EOF sentinel `'0'` satisfies `is_valid_char`.
The claim's "fails cleanly rather than fails to terminate" is violated in the
mid-literal case. -/
theorem claim_C5_mid_literal_diverges :
    run_table (ascii [';', 'a', 'b', 'c']) 100 = some none ∧
    ∀ fuel, run_ini (ascii ['k', 'e', 'y']) fuel = none := by
  constructor
  · decide
  · intro fuel
    cases fuel with
    | zero => rfl
    | succ f =>
      show parse_ini_loop (f + 1)
        ⟨ascii ['k', 'e', 'y'], (ascii ['k', 'e', 'y']).length, 0, 1, 107, none⟩
        shasht_init allocator_init = none
      have hsw : skip_whitespace (f + 1)
          ⟨ascii ['k', 'e', 'y'], (ascii ['k', 'e', 'y']).length, 0, 1, 107, none⟩ =
          some ⟨ascii ['k', 'e', 'y'], (ascii ['k', 'e', 'y']).length, 0, 1, 107, none⟩ := by
        rw [skip_whitespace, if_neg (by decide)]
      have hrl : read_literal_loop (f + 1)
          ⟨ascii ['k', 'e', 'y'], (ascii ['k', 'e', 'y']).length, 0, 1, 107, none⟩ = none := by
        apply read_literal_loop_diverges
        · decide
        · intro i h1 h2
          have h3 : i < 3 := by simpa [ascii] using h2
          interval_cases i <;> decide
      have hrlit : read_literal
          ⟨ascii ['k', 'e', 'y'], (ascii ['k', 'e', 'y']).length, 0, 1, 107, none⟩
          allocator_init (f + 1) = none := by
        rw [read_literal, hrl]
      have hpkv : parse_key_value
          ⟨ascii ['k', 'e', 'y'], (ascii ['k', 'e', 'y']).length, 0, 1, 107, none⟩
          shasht_init allocator_init (f + 1) = none := by
        rw [parse_key_value, hrlit]
      have hpn : parse_next
          ⟨ascii ['k', 'e', 'y'], (ascii ['k', 'e', 'y']).length, 0, 1, 107, none⟩
          shasht_init allocator_init (f + 1) = none := by
        rw [parse_next]
        simp only [hsw]
        rw [if_neg (by decide), if_neg (by decide), if_neg (by decide), if_pos (by decide)]
        simp only [hpkv]
      rw [parse_ini_loop]
      simp only [hpn]

/-- Claim C6, counterexample.  The claim asserts that whenever
`aligned_offset + size > capacity` (in unbounded arithmetic) the call returns
`OutOfMemory`.  Take an arena with `offset = 16 ≤ capacity = 2048` and
`size = 2 ^ 64 - 8`: `aligned_offset = 16` and `16 + (2 ^ 64 - 8) > 2048`, yet
the C capacity check computes `aligned_offset + size` in `size_t`, which wraps
to `8 ≤ 2048`, so the call succeeds and even moves the offset backwards to 8
instead of returning `OutOfMemory`. -/
theorem claim_C6_overflow_counterexample :
    16 ≤ 2048 ∧
    8 * ((16 + 7) / 8) + (2 ^ 64 - 8) > 2048 ∧
    (allocator_alloc ⟨fun _ => 0, 2048, 16⟩ (2 ^ 64 - 8)).map (fun r => (r.1, r.2.offset)) =
      some (16, 8) := by
  refine ⟨by norm_num, by norm_num, ?_⟩
  decide

/-- Claim C6 as amended: the stated contract of `allocator_alloc` holds
whenever `aligned_offset + size` does not overflow `size_t` (and the capacity
itself fits, as the program's only capacity 2048 does): with
`aligned_offset = 8 * ((offset + 7) / 8)` — the offset rounded up to the next
multiple of 8 — if `aligned_offset + size > capacity` the call returns
`OutOfMemory` (`none`, the arena untouched); otherwise it returns a
zero-initialized region of exactly `size` bytes starting at `aligned_offset`,
sets `offset = aligned_offset + size`, and leaves every byte below the old
offset (all previously returned regions) unchanged. -/
theorem claim_C6_alloc_amended (a : LinearAllocator) (size : Nat)
    (hcap : a.cap ≤ 2 ^ 64 - 8) (hoff : a.offset ≤ a.cap)
    (hsz : 8 * ((a.offset + 7) / 8) + size < 2 ^ 64) :
    (8 * ((a.offset + 7) / 8) + size > a.cap → allocator_alloc a size = none) ∧
    (8 * ((a.offset + 7) / 8) + size ≤ a.cap →
      ∃ a', allocator_alloc a size = some (8 * ((a.offset + 7) / 8), a') ∧
        a'.offset = 8 * ((a.offset + 7) / 8) + size ∧
        a'.cap = a.cap ∧
        a.offset ≤ 8 * ((a.offset + 7) / 8) ∧
        (∀ i, i < size → a'.buffer (8 * ((a.offset + 7) / 8) + i) = 0) ∧
        (∀ i, i < a.offset → a'.buffer i = a.buffer i)) := by
  have h7 : a.offset + 7 < 2 ^ 64 := by omega
  have hmod7 : (a.offset + 7) % 2 ^ 64 = a.offset + 7 := Nat.mod_eq_of_lt h7
  have hal : land64 ((a.offset + 7) % 2 ^ 64) (2 ^ 64 - 8) = 8 * ((a.offset + 7) / 8) := by
    rw [hmod7, land64_mask _ h7]
  have hmono : a.offset ≤ 8 * ((a.offset + 7) / 8) := by omega
  have hsum : (8 * ((a.offset + 7) / 8) + size) % 2 ^ 64 = 8 * ((a.offset + 7) / 8) + size :=
    Nat.mod_eq_of_lt hsz
  simp only [allocator_alloc, hal, hsum]
  constructor
  · intro hover
    rw [if_pos hover]
  · intro hfit
    rw [if_neg (by omega)]
    refine ⟨_, rfl, rfl, rfl, hmono, ?_, ?_⟩
    · intro i hi
      show (if 8 * ((a.offset + 7) / 8) ≤ 8 * ((a.offset + 7) / 8) + i ∧
          8 * ((a.offset + 7) / 8) + i < 8 * ((a.offset + 7) / 8) + size then 0
          else a.buffer (8 * ((a.offset + 7) / 8) + i)) = 0
      rw [if_pos ⟨Nat.le_add_right _ _, by omega⟩]
    · intro i hi
      show (if 8 * ((a.offset + 7) / 8) ≤ i ∧ i < 8 * ((a.offset + 7) / 8) + size then 0
          else a.buffer i) = a.buffer i
      rw [if_neg (by omega)]

/-- Claim C6 amended, witness: a fresh-style arena with offset 5, capacity
2048, allocating 10 bytes. -/
theorem claim_C6_alloc_amended_witness :
    (8 * ((5 + 7) / 8) + 10 >
        (LinearAllocator.mk (fun _ => 0) 2048 5).cap →
      allocator_alloc (LinearAllocator.mk (fun _ => 0) 2048 5) 10 = none) ∧
    (8 * ((5 + 7) / 8) + 10 ≤ (LinearAllocator.mk (fun _ => 0) 2048 5).cap →
      ∃ a', allocator_alloc (LinearAllocator.mk (fun _ => 0) 2048 5) 10 =
          some (8 * ((5 + 7) / 8), a') ∧
        a'.offset = 8 * ((5 + 7) / 8) + 10 ∧
        a'.cap = (LinearAllocator.mk (fun _ => 0) 2048 5).cap ∧
        (LinearAllocator.mk (fun _ => 0) 2048 5).offset ≤ 8 * ((5 + 7) / 8) ∧
        (∀ i, i < 10 → a'.buffer (8 * ((5 + 7) / 8) + i) = 0) ∧
        (∀ i, i < (LinearAllocator.mk (fun _ => 0) 2048 5).offset →
          a'.buffer i = (LinearAllocator.mk (fun _ => 0) 2048 5).buffer i)) := by
  have h := claim_C6_alloc_amended (LinearAllocator.mk (fun _ => 0) 2048 5) 10
    (by norm_num) (by norm_num) (by norm_num)
  exact ⟨h.1, h.2⟩

/-
 * ------------------------------------
 * Hash-table invariant and probe lemmas
 * ------------------------------------
-/

/-- Claim C7: when `shasht_set` is called on a well-formed table in which some
slot `i` already stores a key equal to `key` (and the load check passes), that
slot's value is overwritten in place: the stored canonical key is returned,
the allocator is untouched (no new key string), `len` does not grow, and the
entries change only at slot `i`, which keeps its key. -/
theorem claim_C7_overwrite (t : SHashTable) (key value : List Nat) (a : LinearAllocator)
    (i : Nat) (hwf : wf t) (hroom : t.len < t.cap / 2)
    (hik : (t.entries.getD i emptyEntry).key = some key) :
    shasht_set t key value a =
      some (some (key, { t with entries := t.entries.set i ⟨some key, some value⟩ }, a)) := by
  obtain ⟨⟨hcap, hlength, hlen_occ, hlen32⟩, hreach⟩ := hwf
  have hi : i < t.cap := by
    by_contra hge
    rw [List.getD_eq_default _ _ (by omega)] at hik
    exact Option.noConfusion hik
  obtain ⟨j, hj, hji, hprior⟩ := hreach i hi key hik
  have hstart : land64 (hash_key key) (t.cap - 1) < t.cap := by
    rw [hcap]; exact probe_start_lt key
  have hprobe : set_probe t.entries t.cap key t.cap (land64 (hash_key key) (t.cap - 1)) =
      some (i, true) := by
    rw [set_probe_path j t.cap _ hstart (by omega) hprior (by rw [hji]; exact hik), hji]
  rw [shasht_set, if_neg (by omega)]
  simp only [hprobe, hik]
  rfl

/-- Claim C7, witness: a well-formed one-entry table storing the key `"a"` at
its home slot 12, re-set with a new value. -/
theorem claim_C7_overwrite_witness :
    shasht_set
      ⟨(List.replicate 64 emptyEntry).set 12 ⟨some (ascii ['a']), some (ascii ['x'])⟩, 1, 64⟩
      (ascii ['a']) (ascii ['y']) allocator_init =
    some (some (ascii ['a'],
      { (⟨(List.replicate 64 emptyEntry).set 12 ⟨some (ascii ['a']), some (ascii ['x'])⟩,
          1, 64⟩ : SHashTable) with
        entries := ((List.replicate 64 emptyEntry).set 12
          ⟨some (ascii ['a']), some (ascii ['x'])⟩).set 12
            ⟨some (ascii ['a']), some (ascii ['y'])⟩ },
      allocator_init)) :=
  claim_C7_overwrite
    ⟨(List.replicate 64 emptyEntry).set 12 ⟨some (ascii ['a']), some (ascii ['x'])⟩, 1, 64⟩
    (ascii ['a']) (ascii ['y']) allocator_init 12 (by decide) (by decide) (by decide)

/-- Claim C8: on the malformed input `[section\nkey=value\n` the scan stops at
the failed `assert(parser->ch == ']')` in `parse_section_name` — a detected,
in-bounds failure (`some none`), not an out-of-bounds read (the model's
`read_char` never indexes beyond `input_len` by construction) and not a
successful parse. -/
theorem claim_C8_unterminated_section :
    run_table (ascii ['[', 's', 'e', 'c', 't', 'i', 'o', 'n', '\n',
      'k', 'e', 'y', '=', 'v', 'a', 'l', 'u', 'e', '\n']) 100 = some none := by
  decide

/-- Claim C9: `new_parser` initializes `ch` from `input[0]` unconditionally,
so on an empty input (`length == 0`) the very construction of the parser
dereferences the buffer at position 0 — an out-of-bounds read, `none` in the
model — contradicting the claim that no read of the buffer is performed. -/
theorem claim_C9_empty_input_reads :
    newParser [] 0 = none := by
  decide

/-- Claim C10: table construction establishes the invariant — the stored
`len` equals the number of slots holding a non-empty key and never exceeds
`cap / 2` — every `shasht_set` call preserves it (`shasht_get` does not write
to the table at all), and under it at least one empty slot always exists, so
the linear-probe loops inside `set` and `get` exit within `cap` iterations on
every call (`≠ none` says the capacity's worth of fuel is never exhausted).
For `get`, the loop exits through a match, an empty slot, or the slot-0 `NULL`
comparison. -/
theorem claim_C10_invariant :
    inv shasht_init ∧
    (∀ t key value a, inv t → inv (set_table t key value a)) ∧
    (∀ t key value a, inv t → shasht_set t key value a ≠ none) ∧
    (∀ t key, inv t → shasht_get t key ≠ none) := by
  refine ⟨by decide, ?_, ?_, ?_⟩
  · intro t key value a hinv
    obtain ⟨hcap, hlength, hlen_occ, hlen32⟩ := hinv
    rw [set_table, shasht_set]
    by_cases hlen : t.len ≥ t.cap / 2
    · rw [if_pos hlen]
      exact ⟨hcap, hlength, hlen_occ, hlen32⟩
    · rw [if_neg hlen]
      have hstart : land64 (hash_key key) (t.cap - 1) < t.cap := by
        rw [hcap]; exact probe_start_lt key
      rcases hp : set_probe t.entries t.cap key t.cap (land64 (hash_key key) (t.cap - 1))
        with - | ⟨i, b⟩
      · simp only [hp]
        exact ⟨hcap, hlength, hlen_occ, hlen32⟩
      · have hi : i < t.cap := set_probe_result_lt (by omega) hstart hp
        cases b with
        | true =>
          simp only [hp]
          have hkey := set_probe_true_key hp
          have hocc_eq :
              occupied (t.entries.set i ⟨(t.entries.getD i emptyEntry).key, some value⟩) =
                occupied t.entries :=
            occupied_set_isSome (by omega) (by rw [hkey]; rfl) (by rw [hkey]; rfl)
          refine ⟨hcap, by simpa using hlength, ?_, hlen32⟩
          show t.len = occupied (t.entries.set i ⟨(t.entries.getD i emptyEntry).key, some value⟩)
          rw [hocc_eq]
          exact hlen_occ
        | false =>
          have hnone := set_probe_false_key hp
          rcases hd : str_dup key a with - | ⟨dup, a'⟩
          · simp only [hp, hd]
            exact ⟨hcap, hlength, hlen_occ, hlen32⟩
          · simp only [hp, hd]
            have hocc_eq : occupied (t.entries.set i ⟨some dup, some value⟩) =
                occupied t.entries + 1 :=
              occupied_set_of_none (by omega) hnone rfl
            refine ⟨hcap, by simpa using hlength, ?_, ?_⟩
            · show t.len + 1 = occupied (t.entries.set i ⟨some dup, some value⟩)
              rw [hocc_eq]
              omega
            · show t.len + 1 ≤ 32
              omega
  · intro t key value a hinv
    obtain ⟨hcap, hlength, hlen_occ, hlen32⟩ := hinv
    rw [shasht_set]
    by_cases hlen : t.len ≥ t.cap / 2
    · rw [if_pos hlen]; exact fun h => Option.noConfusion h
    · rw [if_neg hlen]
      have hstart : land64 (hash_key key) (t.cap - 1) < t.cap := by
        rw [hcap]; exact probe_start_lt key
      have hocc : occupied t.entries < t.entries.length := by omega
      obtain ⟨iempty, hie, hikey⟩ := exists_empty_slot hocc
      obtain ⟨j, hj, hjkey⟩ :=
        empty_slot_on_probe_path t.cap (by omega) hikey _ hstart
      have hsome : (set_probe t.entries t.cap key t.cap
          (land64 (hash_key key) (t.cap - 1))).isSome :=
        set_probe_stop j t.cap _ hstart (by omega) (Or.inl hjkey)
      obtain ⟨⟨i, b⟩, hp⟩ := Option.isSome_iff_exists.mp hsome
      rw [hp]
      cases b with
      | true => exact fun hc => Option.noConfusion hc
      | false =>
        cases str_dup key a with
        | none => exact fun hc => Option.noConfusion hc
        | some da => exact fun hc => Option.noConfusion hc
  · intro t key hinv
    obtain ⟨hcap, hlength, hlen_occ, hlen32⟩ := hinv
    rw [shasht_get]
    have hstart : land64 (hash_key key) (t.cap - 1) < t.cap := by
      rw [hcap]; exact probe_start_lt key
    have hocc : occupied t.entries < t.entries.length := by omega
    obtain ⟨iempty, hie, hikey⟩ := exists_empty_slot hocc
    obtain ⟨j, hj, hjkey⟩ :=
      empty_slot_on_probe_path t.cap (by omega) hikey _ hstart
    have hsome : (get_probe t.entries t.cap key t.cap
        (land64 (hash_key key) (t.cap - 1))).isSome :=
      get_probe_stop j t.cap _ hstart (by omega) hjkey
    intro h
    rw [h] at hsome
    exact absurd hsome (by simp)

/-- Claim C10, witness: the invariant holds for the freshly constructed table
and is preserved across a concrete insertion; the probe loops of concrete
`set` and `get` calls exit. -/
theorem claim_C10_invariant_witness :
    inv shasht_init ∧
    inv (set_table shasht_init key_host val_redis allocator_init) ∧
    shasht_set shasht_init key_host val_redis allocator_init ≠ none ∧
    shasht_get shasht_init key_host ≠ none :=
  ⟨claim_C10_invariant.1,
   claim_C10_invariant.2.1 shasht_init key_host val_redis allocator_init (by decide),
   claim_C10_invariant.2.2.1 shasht_init key_host val_redis allocator_init (by decide),
   claim_C10_invariant.2.2.2 shasht_init key_host (by decide)⟩

/-
 * ------------------------------------
 * Claim C7: overwrite in place
 * ------------------------------------
-/
